import Mathlib

set_option maxHeartbeats 1000000

/-!
Verification of `src/controller/timeline-controller.js`.

Shallow embedding conventions:
* JS numbers (cue times, PTS values) are modelled as exact rationals (`ℚ`);
* raw bytes are `Nat` masked explicitly as in the source;
* a JS property access that throws on `undefined` is modelled by a handler
  returning `Option` (`none` = the handler threw and did not complete);
* the asynchronous WebVTT parse callback pair is modelled by an oracle carried
  in the fragment-loaded event data (`parseResult : Option (List Cue)`, `none`
  meaning the external parser invoked its error callback).
-/

namespace HlsTimeline

/-- `intersection(x1, x2, y1, y2)` (timeline-controller.js line 23):
`Math.min(x2, y2) - Math.max(x1, y1)`. -/
def intersection (x1 x2 y1 y2 : ℚ) : ℚ := min x2 y2 - max x1 y1

/-- A stored cue range `[start, end]`; `_cueRanges` holds a list of these. -/
abbrev CueRange := ℚ × ℚ

/-- Result of the `addCues` scan loop: the (reversed) range list after the loop,
the `merged` flag, and whether the loop returned early (candidate dropped). -/
structure ScanResult where
  ranges : List CueRange
  merged : Bool
  dropped : Bool
deriving DecidableEq

/-- The `for (let i = ranges.length; i--;)` loop body of `addCues`
(timeline-controller.js lines 131-142).  The loop walks `_cueRanges` from the
highest index down; here the input list is `_cueRanges.reverse`, so the head is
the most-recently-added range.  On `overlap >= 0` the range is extended in
place to `[min(start, startTime), max(end, endTime)]` and `merged` is set; if
additionally `overlap / (endTime - startTime) > 0.5` the function returns at
once, leaving the not-yet-scanned (lower-index) ranges untouched.  (The JS
locals `overlap` and the mutated `cueRange` are inlined.) -/
def addCuesScan (startTime endTime : ℚ) : List CueRange → ScanResult
  | [] => ⟨[], false, false⟩
  | r :: rest =>
    if 0 ≤ intersection r.1 r.2 startTime endTime then
      if intersection r.1 r.2 startTime endTime / (endTime - startTime) > (1 : ℚ) / 2 then
        ⟨(min r.1 startTime, max r.2 endTime) :: rest, true, true⟩
      else
        ⟨(min r.1 startTime, max r.2 endTime) :: (addCuesScan startTime endTime rest).ranges,
          true, (addCuesScan startTime endTime rest).dropped⟩
    else
      ⟨r :: (addCuesScan startTime endTime rest).ranges,
        (addCuesScan startTime endTime rest).merged,
        (addCuesScan startTime endTime rest).dropped⟩

/-- Result of one `addCues` call: the updated `_cueRanges` store and whether the
candidate reached `this._Cues.newCue` (was forwarded to the cue sink). -/
structure AddCuesResult where
  ranges : List CueRange
  forwarded : Bool
deriving DecidableEq

/-- `addCues(channel, startTime, endTime, screen)` (timeline-controller.js
lines 127-147), restricted to its effect on `_cueRanges` and on whether
`newCue` is invoked.  An early `return` from the loop means the candidate is
dropped; otherwise, if no range merged, the candidate interval is pushed as a
new range, and `newCue` is called. -/
def addCues (ranges : List CueRange) (startTime endTime : ℚ) : AddCuesResult :=
  let sc := addCuesScan startTime endTime ranges.reverse
  if sc.dropped then ⟨sc.ranges.reverse, false⟩
  else if sc.merged then ⟨sc.ranges.reverse, true⟩
  else ⟨sc.ranges.reverse ++ [(startTime, endTime)], true⟩

/-- A stored range overlaps the candidate (the `overlap >= 0` test). -/
def overlapsCand (startTime endTime : ℚ) (r : CueRange) : Prop :=
  0 ≤ intersection r.1 r.2 startTime endTime

instance (s e : ℚ) (r : CueRange) : Decidable (overlapsCand s e r) := by
  unfold overlapsCand; infer_instance

/-- A stored range makes the candidate be dropped: it overlaps and the overlap
covers strictly more than half of the candidate's duration. -/
def dropsCand (startTime endTime : ℚ) (r : CueRange) : Prop :=
  0 ≤ intersection r.1 r.2 startTime endTime ∧
    intersection r.1 r.2 startTime endTime / (endTime - startTime) > (1 : ℚ) / 2

instance (s e : ℚ) (r : CueRange) : Decidable (dropsCand s e r) := by
  unfold dropsCand; infer_instance

/-- The in-place extension applied to an overlapping range. -/
def mergeWith (startTime endTime : ℚ) (r : CueRange) : CueRange :=
  (min r.1 startTime, max r.2 endTime)

/-- Extension applied exactly when the range overlaps the candidate. -/
def mergeIfOverlap (startTime endTime : ℚ) (r : CueRange) : CueRange :=
  if 0 ≤ intersection r.1 r.2 startTime endTime then mergeWith startTime endTime r else r

theorem addCuesScan_no_drop (s e : ℚ) (L : List CueRange)
    (h : ∀ r ∈ L, ¬ dropsCand s e r) :
    addCuesScan s e L =
      ⟨L.map (mergeIfOverlap s e),
       L.any (fun r => decide (0 ≤ intersection r.1 r.2 s e)), false⟩ := by
  induction L with
  | nil => simp [addCuesScan]
  | cons r L ih =>
    have hr := h r (by simp)
    have hL : ∀ x ∈ L, ¬ dropsCand s e x := fun x hx => h x (by simp [hx])
    have ihL := ih hL
    by_cases h1 : 0 ≤ intersection r.1 r.2 s e
    · have h2 : ¬ intersection r.1 r.2 s e / (e - s) > (1 : ℚ) / 2 := by
        intro hgt
        exact hr ⟨h1, hgt⟩
      rw [addCuesScan, if_pos h1, if_neg h2, ihL]
      simp [mergeIfOverlap, mergeWith, h1]
    · rw [addCuesScan, if_neg h1, ihL]
      simp [mergeIfOverlap, h1]

theorem addCuesScan_append_no_drop (s e : ℚ) (L M : List CueRange)
    (hL : ∀ x ∈ L, ¬ dropsCand s e x) :
    addCuesScan s e (L ++ M) =
      ⟨L.map (mergeIfOverlap s e) ++ (addCuesScan s e M).ranges,
       (L.any (fun r => decide (0 ≤ intersection r.1 r.2 s e))) || (addCuesScan s e M).merged,
       (addCuesScan s e M).dropped⟩ := by
  induction L with
  | nil => simp
  | cons r L ih =>
    have hr := hL r (by simp)
    have hL' : ∀ x ∈ L, ¬ dropsCand s e x := fun x hx => hL x (by simp [hx])
    have ihL := ih hL'
    by_cases h1 : 0 ≤ intersection r.1 r.2 s e
    · have h2 : ¬ intersection r.1 r.2 s e / (e - s) > (1 : ℚ) / 2 := by
        intro hgt
        exact hr ⟨h1, hgt⟩
      rw [List.cons_append, addCuesScan, if_pos h1, if_neg h2, ihL]
      simp [mergeIfOverlap, mergeWith, h1]
    · rw [List.cons_append, addCuesScan, if_neg h1, ihL]
      simp [mergeIfOverlap, h1]

theorem addCuesScan_drop (s e : ℚ) (r : CueRange) (M : List CueRange)
    (h : dropsCand s e r) :
    addCuesScan s e (r :: M) = ⟨mergeWith s e r :: M, true, true⟩ := by
  obtain ⟨h1, h2⟩ := h
  rw [addCuesScan, if_pos h1, if_pos h2]
  simp [mergeWith]

/-- C1: if, scanning the stored ranges from most-recently-added to
least-recently-added, some range yields `overlap / candidateDuration > 0.5`
(and it is the first such in scan order, i.e. no later-stored range does), then
the candidate is dropped — not forwarded and not appended — the scan stops
there with the in-place merge of that range kept, and all lower-index ranges
are left unchanged (while the higher-index ranges already scanned keep any
merges applied to them). -/
theorem addCues_drop (pre : List CueRange) (r : CueRange) (post : List CueRange)
    (startTime endTime : ℚ)
    (hr : dropsCand startTime endTime r)
    (hpost : ∀ x ∈ post, ¬ dropsCand startTime endTime x) :
    (addCues (pre ++ r :: post) startTime endTime).forwarded = false ∧
    (addCues (pre ++ r :: post) startTime endTime).ranges =
      pre ++ mergeWith startTime endTime r ::
        post.map (mergeIfOverlap startTime endTime) := by
  have hpost' : ∀ x ∈ post.reverse, ¬ dropsCand startTime endTime x := by
    intro x hx
    exact hpost x (List.mem_reverse.mp hx)
  have hsc := addCuesScan_append_no_drop startTime endTime post.reverse
    (r :: pre.reverse) hpost'
  rw [addCuesScan_drop startTime endTime r pre.reverse hr] at hsc
  have hrev : (pre ++ r :: post).reverse = post.reverse ++ r :: pre.reverse := by
    simp
  unfold addCues
  rw [hrev, hsc]
  simp [List.map_reverse]

theorem map_mergeIfOverlap_of_no_overlap (s e : ℚ) (L : List CueRange)
    (h : ∀ x ∈ L, ¬ 0 ≤ intersection x.1 x.2 s e) :
    L.map (mergeIfOverlap s e) = L := by
  induction L with
  | nil => rfl
  | cons y ys ih =>
    have hy := h y (by simp)
    have hys := ih (fun x hx => h x (by simp [hx]))
    simp [mergeIfOverlap, hy, hys]

/-- C2: if no stored range yields `overlap / candidateDuration > 0.5` — in
particular when the ratio is exactly `0.5` — the candidate is forwarded to the
cue sink, every range with `overlap >= 0` is extended in place to
`[min(start, startTime), max(end, endTime)]`, and if no range overlapped at
all, the candidate interval is appended to the store as a new range. -/
theorem addCues_forward (ranges : List CueRange) (startTime endTime : ℚ)
    (h : ∀ x ∈ ranges, ¬ dropsCand startTime endTime x) :
    (addCues ranges startTime endTime).forwarded = true ∧
    (addCues ranges startTime endTime).ranges =
      (if ranges.any (fun r => decide (0 ≤ intersection r.1 r.2 startTime endTime))
       then ranges.map (mergeIfOverlap startTime endTime)
       else ranges ++ [(startTime, endTime)]) := by
  have h' : ∀ x ∈ ranges.reverse, ¬ dropsCand startTime endTime x := by
    intro x hx
    exact h x (List.mem_reverse.mp hx)
  have hsc := addCuesScan_no_drop startTime endTime ranges.reverse h'
  have hany : (ranges.reverse.any (fun r => decide (0 ≤ intersection r.1 r.2 startTime endTime)))
      = (ranges.any (fun r => decide (0 ≤ intersection r.1 r.2 startTime endTime))) := by
    rw [List.any_reverse]
  unfold addCues
  rw [hsc]
  by_cases hm : ranges.any (fun r => decide (0 ≤ intersection r.1 r.2 startTime endTime)) = true
  · simp [hany, hm, List.map_reverse]
  · have hmf : ranges.any (fun r => decide (0 ≤ intersection r.1 r.2 startTime endTime)) = false :=
      Bool.eq_false_iff.mpr hm
    have hno : ∀ x ∈ ranges, ¬ 0 ≤ intersection x.1 x.2 startTime endTime := by
      intro x hx hle
      have hx' : ranges.any (fun r => decide (0 ≤ intersection r.1 r.2 startTime endTime)) = true :=
        List.any_eq_true.mpr ⟨x, hx, by simpa using hle⟩
      rw [hmf] at hx'
      exact Bool.false_ne_true hx'
    have hid := map_mergeIfOverlap_of_no_overlap startTime endTime ranges hno
    simp [hany, hmf, List.map_reverse, hid]

/-- Witness for C1 at a concrete input: candidate `[1, 9]` against stored ranges
`[[100, 101], [2, 10], [200, 201]]`; the middle range overlaps by `7` of a
duration `8` (ratio `7/8 > 0.5`), so the candidate is dropped, that range is
merged to `[1, 10]`, and the other ranges are untouched. -/
theorem addCues_drop_w :
    dropsCand 1 9 ((2 : ℚ), 10) ∧
    (addCues ([((100 : ℚ), 101)] ++ ((2 : ℚ), 10) :: [((200 : ℚ), 201)]) 1 9).forwarded = false ∧
    (addCues ([((100 : ℚ), 101)] ++ ((2 : ℚ), 10) :: [((200 : ℚ), 201)]) 1 9).ranges =
      [((100 : ℚ), 101), (1, 10), (200, 201)] := by
  have hdrop : dropsCand 1 9 ((2 : ℚ), 10) := by
    constructor <;> norm_num [intersection, min_def, max_def]
  have hpost : ∀ x ∈ [((200 : ℚ), 201)], ¬ dropsCand 1 9 x := by
    intro x hx
    simp only [List.mem_singleton] at hx
    subst hx
    intro hc
    have := hc.1
    norm_num [intersection, min_def, max_def] at this
  have h := addCues_drop [((100 : ℚ), 101)] ((2 : ℚ), 10) [((200 : ℚ), 201)] 1 9 hdrop hpost
  refine ⟨hdrop, h.1, ?_⟩
  rw [h.2]
  norm_num [mergeWith, mergeIfOverlap, intersection, min_def, max_def]

/-- Witness for C2 at a concrete input with overlap ratio exactly `0.5`:
candidate `[8, 12]` against stored range `[0, 10]` (overlap `2`, duration `4`);
the candidate is kept and the range extends to `[0, 12]`. -/
theorem addCues_forward_w :
    (∀ x ∈ [((0 : ℚ), 10)], ¬ dropsCand 8 12 x) ∧
    (addCues [((0 : ℚ), 10)] 8 12).forwarded = true ∧
    (addCues [((0 : ℚ), 10)] 8 12).ranges = [((0 : ℚ), 12)] := by
  have hno : ∀ x ∈ [((0 : ℚ), 10)], ¬ dropsCand 8 12 x := by
    intro x hx
    simp only [List.mem_singleton] at hx
    subst hx
    intro hc
    have := hc.2
    norm_num [intersection, min_def, max_def] at this
  have h := addCues_forward [((0 : ℚ), 10)] 8 12 hno
  refine ⟨hno, h.1, ?_⟩
  rw [h.2]
  norm_num [mergeWith, mergeIfOverlap, intersection, min_def, max_def]

/-- A JS read `byteArray[i]`.  Past the end it yields `undefined`; every use in
`_extractCea608Data` immediately masks the value with `&` (`& 31`, `0x7F &`,
`4 &`, `3 &`), and bitwise-and with `undefined` is `0` in JS, so an
out-of-bounds read behaves exactly like reading `0`.  Out-of-bounds accesses
are recorded separately by the `Bool` component of `extractCea608Data`. -/
def jsByte (a : List Nat) (i : Nat) : Nat := a.getD i 0

/-- The `for (var j = 0; j < count; j++)` loop of `_extractCea608Data`
(timeline-controller.js lines 330-348).  `position` starts at `2` and the three
`byteArray[position++]` reads per iteration are modelled at `position`,
`position + 1`, `position + 2`.  Returns the flat list of pushed bytes and
whether any read touched an index at or past the end of the array. -/
def extractLoop (a : List Nat) : Nat → Nat → List Nat × Bool
  | 0, _ => ([], false)
  | j + 1, position =>
    if (0x7F &&& jsByte a (position + 1)) = 0 ∧ (0x7F &&& jsByte a (position + 2)) = 0 then
      ((extractLoop a j (position + 3)).1,
        decide (a.length ≤ position + 2) || (extractLoop a j (position + 3)).2)
    else if (4 &&& jsByte a position) ≠ 0 ∧ (3 &&& jsByte a position) = 0 then
      ((0x7F &&& jsByte a (position + 1)) :: (0x7F &&& jsByte a (position + 2)) ::
          (extractLoop a j (position + 3)).1,
        decide (a.length ≤ position + 2) || (extractLoop a j (position + 3)).2)
    else
      ((extractLoop a j (position + 3)).1,
        decide (a.length ≤ position + 2) || (extractLoop a j (position + 3)).2)

/-- `_extractCea608Data(byteArray)` (timeline-controller.js lines 324-350):
`count = byteArray[0] & 31`, triplets read from offset `2`.  The `Bool`
component reports whether any array read (including the `byteArray[0]` count
read) was out of bounds; the source never bound-checks `count` against the
array length. -/
def extractCea608Data (byteArray : List Nat) : List Nat × Bool :=
  let count := jsByte byteArray 0 &&& 31
  ((extractLoop byteArray count 2).1,
    decide (byteArray.length = 0) || (extractLoop byteArray count 2).2)

/-- Modelled from the claim's wording: the output contributed by the `j`-th
triplet `(marker, byte1, byte2)` read at byte offset `2 + 3 * j` — the pair of
masked bytes when the marker's valid bit `0x04` is set, its type `marker & 0x03`
is `0`, and the two masked data bytes are not both zero; nothing otherwise. -/
def tripletOutput (a : List Nat) (j : Nat) : List Nat :=
  if (4 &&& jsByte a (2 + 3 * j)) ≠ 0 ∧ (3 &&& jsByte a (2 + 3 * j)) = 0 ∧
      ¬ ((0x7F &&& jsByte a (2 + 3 * j + 1)) = 0 ∧ (0x7F &&& jsByte a (2 + 3 * j + 2)) = 0) then
    [0x7F &&& jsByte a (2 + 3 * j + 1), 0x7F &&& jsByte a (2 + 3 * j + 2)]
  else
    []

theorem extractLoop_eq_tripletOutput (a : List Nat) :
    ∀ n k, (extractLoop a n (2 + 3 * k)).1 =
      ((List.range n).map (fun j => tripletOutput a (k + j))).flatten := by
  intro n
  induction n with
  | zero => intro k; simp [extractLoop]
  | succ m ih =>
    intro k
    have hpos : 2 + 3 * k + 3 = 2 + 3 * (k + 1) := by ring
    have hrec : (extractLoop a m (2 + 3 * k + 3)).1 =
        ((List.range m).map (fun j => tripletOutput a (k + 1 + j))).flatten := by
      rw [hpos, ih (k + 1)]
    have hrange : ((List.range (m + 1)).map (fun j => tripletOutput a (k + j))).flatten =
        tripletOutput a k ++ ((List.range m).map (fun j => tripletOutput a (k + 1 + j))).flatten := by
      rw [List.range_succ_eq_map, List.map_cons, List.flatten_cons, List.map_map]
      have hc : (fun j => tripletOutput a (k + j)) ∘ Nat.succ
          = fun j => tripletOutput a (k + 1 + j) := by
        funext j
        have hj : k + (j + 1) = k + 1 + j := by omega
        simp [Function.comp, Nat.succ_eq_add_one, hj]
      rw [hc, Nat.add_zero]
    rw [hrange, extractLoop]
    by_cases hpad : (0x7F &&& jsByte a (2 + 3 * k + 1)) = 0 ∧ (0x7F &&& jsByte a (2 + 3 * k + 2)) = 0
    · rw [if_pos hpad]
      have htrip : tripletOutput a k = [] := by
        rw [tripletOutput, if_neg]
        intro hc
        exact hc.2.2 hpad
      simp [htrip, hrec]
    · rw [if_neg hpad]
      by_cases hv : (4 &&& jsByte a (2 + 3 * k)) ≠ 0 ∧ (3 &&& jsByte a (2 + 3 * k)) = 0
      · rw [if_pos hv]
        have htrip : tripletOutput a k =
            [0x7F &&& jsByte a (2 + 3 * k + 1), 0x7F &&& jsByte a (2 + 3 * k + 2)] := by
          rw [tripletOutput, if_pos ⟨hv.1, hv.2, hpad⟩]
        simp [htrip, hrec]
      · rw [if_neg hv]
        have htrip : tripletOutput a k = [] := by
          rw [tripletOutput, if_neg]
          intro hc
          exact hv ⟨hc.1, hc.2.1⟩
        simp [htrip, hrec]

/-- C7: `_extractCea608Data` returns exactly, in input order, the masked byte
pairs of those triplets — read from byte offset `2`, for
`count = firstByte & 0x1F` triplets — whose marker has the valid bit `0x04`
set, whose type `marker & 0x03` is `0`, and whose two masked data bytes are not
both zero; padding triplets, invalid triplets, and triplets of nonzero type
contribute no output. -/
theorem extractCea608Data_spec (a : List Nat) :
    (extractCea608Data a).1 =
      ((List.range (jsByte a 0 &&& 31)).map (tripletOutput a)).flatten := by
  have h := extractLoop_eq_tripletOutput a (jsByte a 0 &&& 31) 0
  have h2 : (2 : Nat) + 3 * 0 = 2 := by norm_num
  rw [h2] at h
  simp only [extractCea608Data]
  rw [h]
  congr 1
  apply List.map_congr_left
  intro j _
  simp

theorem extractLoop_oob (a : List Nat) :
    ∀ n position, 1 ≤ n → a.length < position + 3 * n →
      (extractLoop a n position).2 = true := by
  intro n
  induction n with
  | zero => intro position h1 _; exact absurd h1 (by omega)
  | succ m ih =>
    intro position _ hlen
    by_cases hoob : a.length ≤ position + 2
    · rw [extractLoop]
      split_ifs <;> simp [hoob]
    · have hm : 1 ≤ m := by
        rcases Nat.eq_zero_or_pos m with hm0 | hm0
        · subst hm0; omega
        · exact hm0
      have hrec := ih (position + 3) hm (by omega)
      rw [extractLoop]
      split_ifs <;> simp [hrec]

/-- C9: there is an input byte array on which `_extractCea608Data` attempts an
out-of-bounds read — the triplet count `firstByte & 0x1F` is never checked
against the array length — and indeed for every array with a nonzero triplet
count whose length is below `2 + 3 * count`, some read goes past the end. -/
theorem extractCea608Data_oob :
    (∃ a : List Nat, a.length < 2 + 3 * (jsByte a 0 &&& 31) ∧
      (extractCea608Data a).2 = true) ∧
    (∀ a : List Nat, 1 ≤ jsByte a 0 &&& 31 → a.length < 2 + 3 * (jsByte a 0 &&& 31) →
      (extractCea608Data a).2 = true) := by
  constructor
  · exact ⟨[1], by decide, by decide⟩
  · intro a h1 hlen
    have hl := extractLoop_oob a (jsByte a 0 &&& 31) 2 h1 hlen
    simp only [extractCea608Data]
    simp [hl]

/-- Witness for C9 at the concrete one-byte array `[0x01]`: the declared count
is `1`, so the loop reads indices `2`, `3`, `4` of a length-1 array. -/
theorem extractCea608Data_oob_w :
    1 ≤ jsByte [1] 0 &&& 31 ∧ [1].length < 2 + 3 * (jsByte [1] 0 &&& 31) ∧
    (extractCea608Data [1]).2 = true := by
  refine ⟨by decide, by decide, ?_⟩
  exact extractCea608Data_oob.2 [1] (by decide) (by decide)

/-- Fragment type discriminator (`frag.type`): the source distinguishes
`'main'` and `'subtitle'`; all other values fall through both branches. -/
inductive FragType
  | main
  | subtitle
  | other
deriving DecidableEq

/-- The fragment metadata fields of `data.frag` read by `onFragLoaded`. -/
structure Frag where
  type : FragType
  sn : Int
  cc : Nat
  start : ℚ
  trackId : Nat
deriving DecidableEq

/-- A parsed WebVTT cue as used by the dedup-and-add loop: identity is `id`. -/
structure Cue where
  id : Nat
  startTime : ℚ
  endTime : ℚ
  text : Nat
deriving DecidableEq

/-- One `FRAG_LOADED` event payload.  `parseResult` is the oracle for the
external `WebVTTParser.parse` call on this fragment's payload: `some cues`
means the success callback fires with `cues`, `none` means the error callback
fires. -/
structure FragData where
  frag : Frag
  payload : List Nat
  parseResult : Option (List Cue)
deriving DecidableEq

/-- One per-discontinuity entry of `_vttCCs`:
`{ start: frag.start, prevCC: this._prevCC, new: true }`. -/
structure CCEntry where
  start : ℚ
  prevCC : Option Int
  newFlag : Bool
deriving DecidableEq

/-- The `_vttCCs` object set by `onManifestLoading`:
`{ccOffset: 0, presentationOffset: 0}` plus the numeric-keyed
per-discontinuity entries added by `onFragLoaded`. -/
structure VttCCs where
  ccOffset : ℚ
  presentationOffset : ℚ
  entries : List (Nat × CCEntry)
deriving DecidableEq

/-- Observable external effects of a handler, in emission order. -/
inductive Output
  | resetCea608
  | parseVtt (payload : List Nat)
  | addCue (track : Nat) (cue : Cue)
  | fragProcessed (success : Bool) (frag : Frag)
deriving DecidableEq

/-- The controller state: the fields of `TimelineController` the claims are
about.  `Option` models a field that may still be `undefined` (`_lastSn`,
`_prevCC` and `_vttCCs` are only initialised by `onManifestLoading`; `_initPTS`
by `onInitPtsFound`).  `sink` maps an abstract platform track handle to its cue
list; `textTracks` is `_textTracks` as a list of handles. -/
structure TCState where
  enableCEA708 : Bool
  enableWebVTT : Bool
  hasMedia : Bool
  lastSn : Option Int
  prevCC : Option Int
  vttCCs : Option VttCCs
  initPTS : Option ℚ
  unparsedVttFrags : List FragData
  cueRanges : List CueRange
  textTracks : List Nat
  sink : Nat → List Cue

/-- The constructor state (timeline-controller.js lines 39-47): config flags
copied, `_textTracks`, `_unparsedVttFrags` and `_cueRanges` empty, `_initPTS`
undefined; `_lastSn`, `_prevCC`, `_vttCCs` and `_media` not yet assigned. -/
def initState (cea webvtt : Bool) : TCState :=
  { enableCEA708 := cea, enableWebVTT := webvtt, hasMedia := false,
    lastSn := none, prevCC := none, vttCCs := none, initPTS := none,
    unparsedVttFrags := [], cueRanges := [], textTracks := [],
    sink := fun _ => [] }

/-- The `cues.forEach` dedup loop inside the parse success callback
(timeline-controller.js lines 284-297): each cue is added to the track only
when `currentTrack.cues.getCueById(cue.id)` finds nothing, i.e. no cue with the
same id is already present (including cues added earlier in the same loop).
Returns the final cue list of the track and the `addCue` effects emitted. -/
def mergeCuesIntoTrack (handle : Nat) (existing : List Cue) :
    List Cue → List Cue × List Output
  | [] => (existing, [])
  | c :: rest =>
    if existing.any (fun x => x.id == c.id) then
      mergeCuesIntoTrack handle existing rest
    else
      ((mergeCuesIntoTrack handle (existing ++ [c]) rest).1,
        Output.addCue handle c :: (mergeCuesIntoTrack handle (existing ++ [c]) rest).2)

/-- The `_vttCCs[frag.cc]` existence test (`!vttCCs[frag.cc]`): entry objects
are truthy, an absent numeric key is `undefined`. -/
def ccFresh (ccs : VttCCs) (d : FragData) : Bool := (ccs.entries.lookup d.frag.cc).isNone

/-- The `_vttCCs` after `onFragLoaded` possibly inserts the entry for
`frag.cc` (timeline-controller.js lines 273-276). -/
def vttCCsUpdate (ccs : VttCCs) (prev : Option Int) (d : FragData) : VttCCs :=
  if ccFresh ccs d then
    { ccs with entries := ccs.entries ++ [(d.frag.cc, ⟨d.frag.start, prev, true⟩)] }
  else ccs

/-- The `_prevCC` after `onFragLoaded` (updated only on a fresh entry). -/
def prevCCUpdate (ccs : VttCCs) (prev : Option Int) (d : FragData) : Option Int :=
  if ccFresh ccs d then some (d.frag.cc : Int) else prev

/-- `onFragLoaded(data)` (timeline-controller.js lines 250-311).
`main` branch: reset the CEA-608 decoder (when the parser exists, i.e. captions
are enabled) unless `sn === _lastSn + 1` — an undefined `_lastSn` makes the
comparison `sn !== NaN`, which always resets — then store `sn`.
`subtitle` branch: an empty payload reports `success: false` at once; with a
nonempty payload and `_initPTS` undefined the data is queued; otherwise the
`_vttCCs` entry for `frag.cc` is created if absent (recording `_prevCC` and
updating it), and the external parse either merges the cues into
`_textTracks[frag.trackId]` and reports `success: true`, or reports
`success: false`.  `none` models the handler throwing (reading a property of
`undefined`: `_vttCCs` not initialised, or `currentTrack` missing). -/
def onFragLoaded (d : FragData) (st : TCState) : Option (TCState × List Output) :=
  match d.frag.type with
  | .main =>
    let needReset : Bool :=
      match st.lastSn with
      | none => true
      | some l => decide (d.frag.sn ≠ l + 1)
    some ({ st with lastSn := some d.frag.sn },
      if needReset && st.enableCEA708 then [.resetCea608] else [])
  | .subtitle =>
    if d.payload.isEmpty then
      some (st, [.fragProcessed false d.frag])
    else if st.initPTS.isNone then
      some ({ st with unparsedVttFrags := st.unparsedVttFrags ++ [d] }, [])
    else
      match st.vttCCs with
      | none => none
      | some ccs =>
        match d.parseResult with
        | some cues =>
          match st.textTracks[d.frag.trackId]? with
          | none => none
          | some handle =>
            some ({ st with
                    vttCCs := some (vttCCsUpdate ccs st.prevCC d),
                    prevCC := prevCCUpdate ccs st.prevCC d,
                    sink := fun h => if h = handle
                      then (mergeCuesIntoTrack handle (st.sink handle) cues).1
                      else st.sink h },
              .parseVtt d.payload ::
                (mergeCuesIntoTrack handle (st.sink handle) cues).2 ++
                  [.fragProcessed true d.frag])
        | none =>
          some ({ st with
                  vttCCs := some (vttCCsUpdate ccs st.prevCC d),
                  prevCC := prevCCUpdate ccs st.prevCC d },
            [.parseVtt d.payload, .fragProcessed false d.frag])
  | .other => some (st, [])

/-- The `this._unparsedVttFrags.forEach(frag => this.onFragLoaded(frag))`
drain loop of `onInitPtsFound`, threading state and concatenating effects. -/
def processFrags : List FragData → TCState → Option (TCState × List Output)
  | [], st => some (st, [])
  | d :: rest, st =>
    match onFragLoaded d st with
    | none => none
    | some (st1, outs1) =>
      match processFrags rest st1 with
      | none => none
      | some (st2, outs2) => some (st2, outs1 ++ outs2)

/-- `onInitPtsFound(data)` (timeline-controller.js lines 150-163): set
`_initPTS` if still undefined; then, if the pending queue is nonempty, run each
queued fragment through `onFragLoaded` in order and clear the queue. -/
def onInitPtsFound (pts : ℚ) (st : TCState) : Option (TCState × List Output) :=
  let st1 := if st.initPTS.isNone then { st with initPTS := some pts } else st
  if st1.unparsedVttFrags.isEmpty then
    some (st1, [])
  else
    match processFrags st1.unparsedVttFrags st1 with
    | none => none
    | some (st2, outs) => some ({ st2 with unparsedVttFrags := [] }, outs)

/-- `onMediaAttaching(data)` (line 191): stores `data.media`. -/
def onMediaAttaching (st : TCState) : TCState :=
  { st with hasMedia := true }

/-- `clearCurrentCues(track)` (lines 11-17) applied to an optional track
handle: with no track (`undefined`) the `if (track && track.cues)` guard makes
it a no-op; otherwise the track's cue list is emptied. -/
def clearCurrentCues (track : Option Nat) (sink : Nat → List Cue) : Nat → List Cue :=
  match track with
  | none => sink
  | some handle => fun h => if h = handle then [] else sink h

/-- `onMediaDetaching()` (lines 195-198) calls `clearCurrentCues` on
`this._textTrack1` and `this._textTrack2`.  Neither field is ever assigned
anywhere in the source — the CEA-608 channel callbacks write `this.textTrack1`
and `this.textTrack2`, without the underscore — so both reads are `undefined`
and the handler changes nothing. -/
def onMediaDetaching (st : TCState) : TCState :=
  { st with sink := clearCurrentCues none (clearCurrentCues none st.sink) }

/-- `onManifestLoading()` (lines 200-216): `_lastSn = -1`, `_prevCC = -1`,
`_vttCCs = {ccOffset: 0, presentationOffset: 0}`; when media is attached,
every media text track's cue list is cleared. -/
def onManifestLoading (st : TCState) : TCState :=
  { st with
    lastSn := some (-1), prevCC := some (-1),
    vttCCs := some ⟨0, 0, []⟩,
    sink := if st.hasMedia then (fun _ => []) else st.sink }

/-- `onManifestLoaded(data)` (lines 218-244): `_textTracks` is rebuilt (the
platform track creation/reuse is abstracted by the event supplying the
resulting handles, used only when WebVTT is enabled), `_initPTS` is set back to
undefined and `_cueRanges` is emptied; `_unparsedVttFrags` is kept as-is
(`this._unparsedVttFrags || []` on an always-defined array). -/
def onManifestLoaded (tracks : List Nat) (st : TCState) : TCState :=
  { st with
    textTracks := if st.enableWebVTT then tracks else [],
    initPTS := none, cueRanges := [] }

/-- The six event-handler invocations the reachability claims quantify over. -/
inductive TCEvent
  | fragLoaded (d : FragData)
  | initPtsFound (pts : ℚ)
  | manifestLoading
  | manifestLoaded (tracks : List Nat)
  | mediaAttaching
  | mediaDetaching

/-- One completed event-handler invocation (`none` = the handler threw). -/
def step (e : TCEvent) (st : TCState) : Option TCState :=
  match e with
  | .fragLoaded d => (onFragLoaded d st).map (·.1)
  | .initPtsFound pts => (onInitPtsFound pts st).map (·.1)
  | .manifestLoading => some (onManifestLoading st)
  | .manifestLoaded tracks => some (onManifestLoaded tracks st)
  | .mediaAttaching => some (onMediaAttaching st)
  | .mediaDetaching => some (onMediaDetaching st)

/-- Running a finite sequence of completed event-handler invocations. -/
def run : List TCEvent → TCState → Option TCState
  | [], st => some st
  | e :: rest, st =>
    match step e st with
    | none => none
    | some st' => run rest st'

/-- A state reachable from some freshly-constructed controller by a finite
sequence of completed event-handler invocations. -/
def Reachable (st : TCState) : Prop :=
  ∃ cea webvtt evs, run evs (initState cea webvtt) = some st

/-- The per-discontinuity entries of the Continuity Map (empty when `_vttCCs`
is still undefined). -/
def ccEntries (st : TCState) : List (Nat × CCEntry) :=
  match st.vttCCs with
  | none => []
  | some ccs => ccs.entries

/-- A `'main'`-type fragment-loaded event with sequence number `sn`
(payload and parse oracle irrelevant to the main branch). -/
def mainFrag (sn : Int) : FragData := ⟨⟨.main, sn, 0, 0, 0⟩, [], none⟩

/-- Number of decoder resets signalled in an effect list. -/
def resetCount (outs : List Output) : Nat :=
  outs.countP (fun o => decide (o = Output.resetCea608))

/-- C6: with the CEA-608 parser present, a main fragment with sequence number
`sn` signals a decoder reset iff `sn` differs from the stored sequence number
plus one, and unconditionally stores `sn`; concretely, from the sentinel `-1`
the main-fragment sequence `5, 6, 8` produces exactly two resets. -/
theorem discontinuitySequencer :
    (∀ (st : TCState) (l sn : Int), st.lastSn = some l → st.enableCEA708 = true →
      onFragLoaded (mainFrag sn) st =
        some ({ st with lastSn := some sn },
          if sn = l + 1 then [] else [.resetCea608])) ∧
    (processFrags [mainFrag 5, mainFrag 6, mainFrag 8]
        (onManifestLoading (initState true false))).map (fun r => resetCount r.2)
      = some 2 := by
  constructor
  · intro st l sn hl hcea
    simp only [onFragLoaded, mainFrag]
    rw [hl, hcea]
    by_cases h : sn = l + 1
    · simp [h]
    · simp [h]
  · rfl

/-- Witness for C6 at a concrete state: stored sequence number `-1` (the
sentinel set by `onManifestLoading`), incoming `sn = 5`: a reset is signalled
and `5` is stored. -/
theorem discontinuitySequencer_w :
    onFragLoaded (mainFrag 5) (onManifestLoading (initState true false)) =
      some ({ onManifestLoading (initState true false) with lastSn := some 5 },
        [.resetCea608]) := by
  have h := discontinuitySequencer.1 (onManifestLoading (initState true false)) (-1) 5 rfl rfl
  rw [if_neg (by decide)] at h
  exact h

/-- A pending subtitle fragment with a nonempty payload, for counterexamples. -/
def dPending : FragData := ⟨⟨.subtitle, 0, 0, 0, 0⟩, [1], none⟩

/-- A controller state with a nonempty pending queue, a continuity-map entry
and a stored cue range. -/
def stDetach : TCState :=
  { initState false false with
    unparsedVttFrags := [dPending],
    vttCCs := some ⟨0, 0, [(0, ⟨0, some (-1), true⟩)]⟩,
    cueRanges := [((0 : ℚ), 1)] }

/-- Counterexample to C4: `onMediaDetaching` does NOT clear the pending
fragment queue, the continuity map or the cue-range store — at this concrete
state all three are still nonempty when the handler returns.  (The handler
only calls `clearCurrentCues` on `this._textTrack1`/`this._textTrack2`, fields
never assigned anywhere in the source.) -/
theorem onMediaDetaching_not_clearing :
    (onMediaDetaching stDetach).unparsedVttFrags ≠ [] ∧
    ccEntries (onMediaDetaching stDetach) ≠ [] ∧
    (onMediaDetaching stDetach).cueRanges ≠ [] := by
  refine ⟨?_, ?_, ?_⟩ <;>
    simp [onMediaDetaching, stDetach, ccEntries, initState, clearCurrentCues]

/-- C4 (amended): `onMediaDetaching` leaves the pending-fragment queue, the
continuity map and the cue-range store — indeed the whole modelled state —
unchanged: its two `clearCurrentCues` calls receive the never-assigned
(`undefined`) fields `_textTrack1` and `_textTrack2` and are no-ops. -/
theorem onMediaDetaching_preserves (st : TCState) : onMediaDetaching st = st := rfl

/-- A controller state with a set reference timestamp and a nonempty pending
queue, submitted to the manifest-load sequence. -/
def stManifest : TCState :=
  { initState false false with
    initPTS := some 0,
    unparsedVttFrags := [dPending],
    vttCCs := some ⟨0, 0, [(0, ⟨0, some (-1), true⟩)]⟩,
    cueRanges := [((0 : ℚ), 1)] }

/-- Counterexample to C5: after `onManifestLoading` followed by
`onManifestLoaded`, the pending-fragment queue is NOT empty — the source keeps
it (`this._unparsedVttFrags = this._unparsedVttFrags || []`). -/
theorem manifestLoad_counterexample :
    (onManifestLoaded [] (onManifestLoading stManifest)).unparsedVttFrags = [dPending] ∧
    [dPending] ≠ ([] : List FragData) := ⟨rfl, by simp⟩

/-- C5 (amended): after the manifest-load event sequence (`onManifestLoading`
then `onManifestLoaded`) the cue-range store is empty, the continuity map
holds no per-discontinuity entries and the reference timestamp is unset — but
the pending-fragment queue is left exactly as it was, not cleared. -/
theorem manifestLoad_resets (st : TCState) (tracks : List Nat) :
    (onManifestLoaded tracks (onManifestLoading st)).cueRanges = [] ∧
    ccEntries (onManifestLoaded tracks (onManifestLoading st)) = [] ∧
    (onManifestLoaded tracks (onManifestLoading st)).initPTS = none ∧
    (onManifestLoaded tracks (onManifestLoading st)).unparsedVttFrags
      = st.unparsedVttFrags := by
  refine ⟨rfl, ?_, rfl, rfl⟩
  simp [ccEntries, onManifestLoaded, onManifestLoading]

/-- Extracts the fragment of a fragment-processed notification, if any. -/
def pfOut : Output → Option Frag
  | .fragProcessed _ f => some f
  | _ => none

/-- The fragments reported processed (in order) in an effect list. -/
def processedFrags (outs : List Output) : List Frag := outs.filterMap pfOut

theorem processedFrags_append (a b : List Output) :
    processedFrags (a ++ b) = processedFrags a ++ processedFrags b :=
  List.filterMap_append a b pfOut

theorem mergeCuesIntoTrack_no_processed (handle : Nat) :
    ∀ (cs ex : List Cue), (mergeCuesIntoTrack handle ex cs).2.filterMap pfOut = [] := by
  intro cs
  induction cs with
  | nil => intro ex; simp [mergeCuesIntoTrack]
  | cons c rest ih =>
    intro ex
    by_cases hdup : ex.any (fun x => x.id == c.id) = true
    · simp [mergeCuesIntoTrack, hdup, ih]
    · simp [mergeCuesIntoTrack, hdup, ih, pfOut]

theorem mergeCuesIntoTrack_not_processed (handle : Nat) (cs ex : List Cue)
    (b : Bool) (f : Frag) :
    Output.fragProcessed b f ∉ (mergeCuesIntoTrack handle ex cs).2 := by
  intro hmem
  have h := mergeCuesIntoTrack_no_processed handle cs ex
  have hf : f ∈ (mergeCuesIntoTrack handle ex cs).2.filterMap pfOut :=
    List.mem_filterMap.mpr ⟨Output.fragProcessed b f, hmem, rfl⟩
  rw [h] at hf
  exact (List.not_mem_nil f) hf


theorem onFragLoaded_subtitle_char (st : TCState) (d : FragData) (p : ℚ) (ccs : VttCCs)
    (hp : st.initPTS = some p) (hcc : st.vttCCs = some ccs)
    (hty : d.frag.type = .subtitle) (hpl : d.payload ≠ [])
    (htr : ∀ cues, d.parseResult = some cues → d.frag.trackId < st.textTracks.length) :
    ∃ st' outs, onFragLoaded d st = some (st', outs) ∧
      processedFrags outs = [d.frag] ∧
      st'.initPTS = st.initPTS ∧
      st'.vttCCs = some (vttCCsUpdate ccs st.prevCC d) ∧
      st'.textTracks = st.textTracks ∧
      st'.unparsedVttFrags = st.unparsedVttFrags := by
  obtain ⟨b, bs, hbs⟩ : ∃ b bs, d.payload = b :: bs := by
    cases hdp : d.payload with
    | nil => exact absurd hdp hpl
    | cons b bs => exact ⟨b, bs, rfl⟩
  cases hpr : d.parseResult with
  | none =>
    refine ⟨{ st with
        vttCCs := some (vttCCsUpdate ccs st.prevCC d),
        prevCC := prevCCUpdate ccs st.prevCC d },
      [.parseVtt d.payload, .fragProcessed false d.frag], ?_, ?_, rfl, rfl, rfl, rfl⟩
    · simp [onFragLoaded, hty, hp, hcc, hpr, hbs]
    · simp [processedFrags, pfOut]
  | some cues =>
    have hlt := htr cues hpr
    have hhandle : st.textTracks[d.frag.trackId]? =
        some (st.textTracks.get ⟨d.frag.trackId, hlt⟩) := by
      rw [List.getElem?_eq_getElem hlt]
      simp
    refine ⟨{ st with
        vttCCs := some (vttCCsUpdate ccs st.prevCC d),
        prevCC := prevCCUpdate ccs st.prevCC d,
        sink := fun h => if h = st.textTracks.get ⟨d.frag.trackId, hlt⟩
          then (mergeCuesIntoTrack (st.textTracks.get ⟨d.frag.trackId, hlt⟩)
            (st.sink (st.textTracks.get ⟨d.frag.trackId, hlt⟩)) cues).1
          else st.sink h },
      .parseVtt d.payload ::
        (mergeCuesIntoTrack (st.textTracks.get ⟨d.frag.trackId, hlt⟩)
          (st.sink (st.textTracks.get ⟨d.frag.trackId, hlt⟩)) cues).2 ++
        [.fragProcessed true d.frag],
      ?_, ?_, rfl, rfl, rfl, rfl⟩
    · simp [onFragLoaded, hty, hp, hcc, hpr, hbs, hhandle]
    · simp [processedFrags, List.filterMap_append, pfOut,
        mergeCuesIntoTrack_no_processed]

theorem mergeCuesIntoTrack_pairwise (handle : Nat) :
    ∀ (cs ex : List Cue), ex.Pairwise (fun a b => a.id ≠ b.id) →
      ((mergeCuesIntoTrack handle ex cs).1).Pairwise (fun a b => a.id ≠ b.id) := by
  intro cs
  induction cs with
  | nil => intro ex h; simpa [mergeCuesIntoTrack] using h
  | cons c rest ih =>
    intro ex h
    by_cases hdup : ex.any (fun x => x.id == c.id) = true
    · simpa [mergeCuesIntoTrack, hdup] using ih ex h
    · have hnew : (ex ++ [c]).Pairwise (fun a b => a.id ≠ b.id) := by
        rw [List.pairwise_append]
        refine ⟨h, List.pairwise_singleton _ _, ?_⟩
        intro a ha b hb hab
        simp only [List.mem_singleton] at hb
        have hany : ex.any (fun x => x.id == c.id) = true :=
          List.any_eq_true.mpr ⟨a, ha, by simp [hab, hb]⟩
        exact hdup hany
      simpa [mergeCuesIntoTrack, hdup] using ih (ex ++ [c]) hnew

/-- C8: for every subtitle fragment processed while the reference timestamp is
known (and the handler completes), the fragment-processed notification carries
`success: false` iff the payload is empty — in which case the external parser
is never invoked and nothing else happens — or the external parser reports an
error; on a successful parse the notification carries `success: true` and is
emitted only after the parsed cues are merged into the destination track, each
cue added only when no cue with the same id is already present (dedup that
preserves id-uniqueness of the sink). -/
theorem subtitleProcessedOutcome :
    (∀ (st : TCState) (d : FragData) (p : ℚ) (ccs : VttCCs),
      st.initPTS = some p → st.vttCCs = some ccs → d.frag.type = .subtitle →
      (∀ cues, d.parseResult = some cues → d.frag.trackId < st.textTracks.length) →
      ∃ st' outs, onFragLoaded d st = some (st', outs) ∧
        ((Output.fragProcessed false d.frag ∈ outs) ↔
          (d.payload = [] ∨ d.parseResult = none)) ∧
        ((Output.fragProcessed true d.frag ∈ outs) ↔
          (d.payload ≠ [] ∧ d.parseResult ≠ none)) ∧
        (d.payload = [] → st' = st ∧ outs = [.fragProcessed false d.frag]) ∧
        (∀ cues, d.parseResult = some cues → d.payload ≠ [] →
          ∀ hlt : d.frag.trackId < st.textTracks.length,
            outs = .parseVtt d.payload ::
                (mergeCuesIntoTrack (st.textTracks.get ⟨d.frag.trackId, hlt⟩)
                  (st.sink (st.textTracks.get ⟨d.frag.trackId, hlt⟩)) cues).2 ++
              [.fragProcessed true d.frag] ∧
            st'.sink (st.textTracks.get ⟨d.frag.trackId, hlt⟩) =
              (mergeCuesIntoTrack (st.textTracks.get ⟨d.frag.trackId, hlt⟩)
                (st.sink (st.textTracks.get ⟨d.frag.trackId, hlt⟩)) cues).1)) ∧
    (∀ (handle : Nat) (ex cs : List Cue),
      ex.Pairwise (fun a b => a.id ≠ b.id) →
      ((mergeCuesIntoTrack handle ex cs).1).Pairwise (fun a b => a.id ≠ b.id)) := by
  refine ⟨?_, fun handle ex cs h => mergeCuesIntoTrack_pairwise handle cs ex h⟩
  intro st d p ccs hp hcc hty htr
  by_cases hpl : d.payload = []
  · refine ⟨st, [.fragProcessed false d.frag], ?_, ?_, ?_, fun _ => ⟨rfl, rfl⟩, ?_⟩
    · simp [onFragLoaded, hty, hpl]
    · simp [hpl]
    · simp [hpl]
    · intro cues hcues hpl2
      exact absurd hpl hpl2
  · obtain ⟨b, bs, hbs⟩ : ∃ b bs, d.payload = b :: bs := by
      cases hdp : d.payload with
      | nil => exact absurd hdp hpl
      | cons b bs => exact ⟨b, bs, rfl⟩
    cases hpr : d.parseResult with
    | none =>
      refine ⟨{ st with
          vttCCs := some (vttCCsUpdate ccs st.prevCC d),
          prevCC := prevCCUpdate ccs st.prevCC d },
        [.parseVtt d.payload, .fragProcessed false d.frag], ?_, ?_, ?_, ?_, ?_⟩
      · simp [onFragLoaded, hty, hp, hcc, hpr, hbs]
      · simp [hpr]
      · simp [hpr]
      · intro h
        exact absurd h hpl
      · intro cues hcues hpl2 hlt
        exact Option.noConfusion hcues
    | some cues =>
      have hlt := htr cues hpr
      have hhandle : st.textTracks[d.frag.trackId]? =
          some (st.textTracks.get ⟨d.frag.trackId, hlt⟩) := by
        rw [List.getElem?_eq_getElem hlt]
        simp
      have hnpf := mergeCuesIntoTrack_not_processed
        (st.textTracks.get ⟨d.frag.trackId, hlt⟩) cues
        (st.sink (st.textTracks.get ⟨d.frag.trackId, hlt⟩)) false d.frag
      refine ⟨{ st with
          vttCCs := some (vttCCsUpdate ccs st.prevCC d),
          prevCC := prevCCUpdate ccs st.prevCC d,
          sink := fun h => if h = st.textTracks.get ⟨d.frag.trackId, hlt⟩
            then (mergeCuesIntoTrack (st.textTracks.get ⟨d.frag.trackId, hlt⟩)
              (st.sink (st.textTracks.get ⟨d.frag.trackId, hlt⟩)) cues).1
            else st.sink h },
        .parseVtt d.payload ::
          (mergeCuesIntoTrack (st.textTracks.get ⟨d.frag.trackId, hlt⟩)
            (st.sink (st.textTracks.get ⟨d.frag.trackId, hlt⟩)) cues).2 ++
          [.fragProcessed true d.frag],
        ?_, ?_, ?_, ?_, ?_⟩
      · simp [onFragLoaded, hty, hp, hcc, hpr, hbs, hhandle]
      · constructor
        · intro hmem
          rcases List.mem_cons.mp hmem with h1 | h1
          · cases h1
          · rcases List.mem_append.mp h1 with h2 | h2
            · exact absurd h2 hnpf
            · simp at h2
        · intro hr
          rcases hr with h1 | h1
          · exact absurd h1 hpl
          · exact Option.noConfusion h1
      · simp [hpr, hpl]
      · intro h
        exact absurd h hpl
      · intro cues2 hcues2 hpl2 hlt2
        injection hcues2 with hc
        subst hc
        exact ⟨rfl, by simp⟩

/-- A gate state: reference timestamp unset, one track, empty continuity map. -/
def stG0 : TCState :=
  { initState false true with vttCCs := some ⟨0, 0, []⟩, textTracks := [3] }

/-- A subtitle fragment with nonempty payload whose parse succeeds with one cue. -/
def dW : FragData := ⟨⟨.subtitle, 0, 0, 0, 0⟩, [7], some [⟨1, 0, 1, 0⟩]⟩

/-- `stG0` with the reference timestamp known. -/
def stW : TCState := { stG0 with initPTS := some 0 }

/-- Witness for C8 at a concrete input: a successfully parsed nonempty
subtitle fragment while `_initPTS` is set yields no `success: false` and one
`success: true` notification. -/
theorem subtitleProcessedOutcome_w :
    ∃ st' outs, onFragLoaded dW stW = some (st', outs) ∧
      ((Output.fragProcessed false dW.frag ∈ outs) ↔
        (dW.payload = [] ∨ dW.parseResult = none)) ∧
      ((Output.fragProcessed true dW.frag ∈ outs) ↔
        (dW.payload ≠ [] ∧ dW.parseResult ≠ none)) := by
  have hc : ∀ cues, dW.parseResult = some cues →
      dW.frag.trackId < stW.textTracks.length := by
    intro cues hcues
    simp [dW, stW, stG0, initState]
  obtain ⟨st', outs, heq, h1, h2, _⟩ :=
    subtitleProcessedOutcome.1 stW dW 0 ⟨0, 0, []⟩ rfl rfl rfl hc
  exact ⟨st', outs, heq, h1, h2⟩

theorem processFrags_char :
    ∀ (q : List FragData) (st : TCState) (p : ℚ) (ccs : VttCCs),
      st.initPTS = some p → st.vttCCs = some ccs →
      (∀ d ∈ q, d.frag.type = .subtitle ∧ d.payload ≠ [] ∧
        ∀ cues, d.parseResult = some cues → d.frag.trackId < st.textTracks.length) →
      ∃ st' outs, processFrags q st = some (st', outs) ∧
        processedFrags outs = q.map (fun d => d.frag) ∧
        st'.initPTS = st.initPTS ∧ (∃ ccs2, st'.vttCCs = some ccs2) ∧
        st'.textTracks = st.textTracks ∧
        st'.unparsedVttFrags = st.unparsedVttFrags := by
  intro q
  induction q with
  | nil =>
    intro st p ccs hp hcc _
    exact ⟨st, [], rfl, rfl, rfl, ⟨ccs, hcc⟩, rfl, rfl⟩
  | cons d rest ih =>
    intro st p ccs hp hcc hq
    obtain ⟨hty, hpl, htr⟩ := hq d (by simp)
    obtain ⟨st1, outs1, heq1, hpf1, hip1, hcc1, htt1, huq1⟩ :=
      onFragLoaded_subtitle_char st d p ccs hp hcc hty hpl htr
    have hp1 : st1.initPTS = some p := by rw [hip1, hp]
    have hq1 : ∀ x ∈ rest, x.frag.type = .subtitle ∧ x.payload ≠ [] ∧
        ∀ cues, x.parseResult = some cues → x.frag.trackId < st1.textTracks.length := by
      intro x hx
      obtain ⟨h1, h2, h3⟩ := hq x (by simp [hx])
      exact ⟨h1, h2, fun cues hc => by rw [htt1]; exact h3 cues hc⟩
    obtain ⟨st2, outs2, heq2, hpf2, hip2, hcc2, htt2, huq2⟩ :=
      ih st1 p (vttCCsUpdate ccs st.prevCC d) hp1 hcc1 hq1
    refine ⟨st2, outs1 ++ outs2, ?_, ?_, ?_, hcc2, ?_, ?_⟩
    · simp only [processFrags, heq1, heq2]
    · rw [processedFrags_append, hpf1, hpf2, List.map_cons]
      rfl
    · rw [hip2, hip1]
    · rw [htt2, htt1]
    · rw [huq2, huq1]

/-- C3 (amended to nonempty payloads): a subtitle fragment with nonempty
payload arriving while `_initPTS` is unset is enqueued with no downstream
effect; when `onInitPtsFound` arrives, the timestamp is set and every queued
fragment is run through the normal subtitle-processing path exactly once, in
FIFO order, after which the queue is cleared; and a subtitle fragment with
nonempty payload arriving once the timestamp is set is processed immediately,
leaving the queue untouched. -/
theorem ptsGate :
    (∀ (st : TCState) (d : FragData), st.initPTS = none → d.frag.type = .subtitle →
      d.payload ≠ [] →
      onFragLoaded d st =
        some ({ st with unparsedVttFrags := st.unparsedVttFrags ++ [d] }, [])) ∧
    (∀ (st : TCState) (pts : ℚ) (ccs : VttCCs), st.initPTS = none →
      st.vttCCs = some ccs →
      (∀ d ∈ st.unparsedVttFrags, d.frag.type = .subtitle ∧ d.payload ≠ [] ∧
        ∀ cues, d.parseResult = some cues → d.frag.trackId < st.textTracks.length) →
      ∃ st' outs, onInitPtsFound pts st = some (st', outs) ∧
        st'.initPTS = some pts ∧ st'.unparsedVttFrags = [] ∧
        processedFrags outs = st.unparsedVttFrags.map (fun d => d.frag)) ∧
    (∀ (st : TCState) (d : FragData) (p : ℚ) (ccs : VttCCs), st.initPTS = some p →
      st.vttCCs = some ccs → d.frag.type = .subtitle → d.payload ≠ [] →
      (∀ cues, d.parseResult = some cues → d.frag.trackId < st.textTracks.length) →
      ∃ st' outs, onFragLoaded d st = some (st', outs) ∧
        st'.unparsedVttFrags = st.unparsedVttFrags ∧
        processedFrags outs = [d.frag]) := by
  refine ⟨?_, ?_, ?_⟩
  · intro st d hip hty hpl
    obtain ⟨b, bs, hbs⟩ : ∃ b bs, d.payload = b :: bs := by
      cases hdp : d.payload with
      | nil => exact absurd hdp hpl
      | cons b bs => exact ⟨b, bs, rfl⟩
    simp [onFragLoaded, hty, hbs, hip]
  · intro st pts ccs hip hcc hq
    have hnone : st.initPTS.isNone = true := by rw [hip]; rfl
    by_cases hqe : st.unparsedVttFrags = []
    · refine ⟨{ st with initPTS := some pts }, [], ?_, rfl, ?_, ?_⟩
      · simp [onInitPtsFound, hnone, hqe]
      · simp [hqe]
      · simp [hqe, processedFrags]
    · have hqe' : st.unparsedVttFrags.isEmpty = false := by
        cases h : st.unparsedVttFrags with
        | nil => exact absurd h hqe
        | cons x xs => rfl
      obtain ⟨st2, outs, heq, hpf, hip2, _, _, _⟩ :=
        processFrags_char st.unparsedVttFrags { st with initPTS := some pts }
          pts ccs rfl hcc hq
      refine ⟨{ st2 with unparsedVttFrags := [] }, outs, ?_, ?_, rfl, hpf⟩
      · simp [onInitPtsFound, hnone, hqe', heq]
      · simpa using hip2
  · intro st d p ccs hp hcc hty hpl htr
    obtain ⟨st', outs, heq, hpf, _, _, _, huq⟩ :=
      onFragLoaded_subtitle_char st d p ccs hp hcc hty hpl htr
    exact ⟨st', outs, heq, huq, hpf⟩

/-- An empty-payload subtitle fragment. -/
def dEmpty : FragData := ⟨⟨.subtitle, 0, 0, 0, 0⟩, [], none⟩

/-- Counterexample to C3 as stated: while the reference timestamp is unset, an
arriving empty-payload subtitle fragment is NOT enqueued — the queue stays
empty — and it is not free of downstream effects either: a `success: false`
fragment-processed notification is emitted at once. -/
theorem ptsGate_counterexample :
    (initState false false).initPTS = none ∧
    (initState false false).unparsedVttFrags = [] ∧
    onFragLoaded dEmpty (initState false false) =
      some (initState false false, [.fragProcessed false dEmpty.frag]) :=
  ⟨rfl, rfl, rfl⟩

/-- Witness for C3 at concrete inputs: a nonempty subtitle fragment is queued
while the timestamp is unset; the first `onInitPtsFound` then processes the
queued fragment exactly once and clears the queue. -/
theorem ptsGate_w :
    (onFragLoaded dW stG0 = some ({ stG0 with unparsedVttFrags := [dW] }, [])) ∧
    (∃ st' outs,
      onInitPtsFound 0 { stG0 with unparsedVttFrags := [dW] } = some (st', outs) ∧
      st'.initPTS = some 0 ∧ st'.unparsedVttFrags = [] ∧
      processedFrags outs = [dW.frag]) := by
  constructor
  · have h := ptsGate.1 stG0 dW rfl rfl (by simp [dW])
    simpa [stG0, initState] using h
  · have hcond : ∀ d ∈ ({ stG0 with unparsedVttFrags := [dW] } : TCState).unparsedVttFrags,
        d.frag.type = .subtitle ∧ d.payload ≠ [] ∧
        ∀ cues, d.parseResult = some cues →
          d.frag.trackId < ({ stG0 with unparsedVttFrags := [dW] } : TCState).textTracks.length := by
      intro d hd
      simp only [List.mem_singleton] at hd
      rw [hd]
      refine ⟨rfl, by simp [dW], ?_⟩
      intro cues hcues
      simp [dW, stG0, initState]
    obtain ⟨st', outs, heq, h1, h2, h3⟩ :=
      ptsGate.2.1 { stG0 with unparsedVttFrags := [dW] } 0 ⟨0, 0, []⟩ rfl rfl hcond
    exact ⟨st', outs, heq, h1, h2, by simpa using h3⟩

theorem onFragLoaded_queue (d : FragData) (st st' : TCState) (outs : List Output)
    (h : onFragLoaded d st = some (st', outs)) :
    st'.initPTS = st.initPTS ∧
    (st'.unparsedVttFrags = st.unparsedVttFrags ∨
      (st.initPTS = none ∧ st'.unparsedVttFrags = st.unparsedVttFrags ++ [d])) := by
  cases hty : d.frag.type with
  | main =>
    simp only [onFragLoaded, hty, Option.some.injEq, Prod.mk.injEq] at h
    obtain ⟨hst, _⟩ := h
    rw [← hst]
    exact ⟨rfl, Or.inl rfl⟩
  | other =>
    simp only [onFragLoaded, hty, Option.some.injEq, Prod.mk.injEq] at h
    obtain ⟨hst, _⟩ := h
    rw [← hst]
    exact ⟨rfl, Or.inl rfl⟩
  | subtitle =>
    by_cases hpl : d.payload.isEmpty = true
    · simp only [onFragLoaded, hty] at h
      rw [if_pos hpl] at h
      simp only [Option.some.injEq, Prod.mk.injEq] at h
      obtain ⟨hst, _⟩ := h
      rw [← hst]
      exact ⟨rfl, Or.inl rfl⟩
    · have hplf : d.payload.isEmpty = false := Bool.eq_false_iff.mpr hpl
      simp only [onFragLoaded, hty] at h
      rw [if_neg hpl] at h
      by_cases hip : st.initPTS.isNone = true
      · rw [if_pos hip] at h
        simp only [Option.some.injEq, Prod.mk.injEq] at h
        obtain ⟨hst, _⟩ := h
        rw [← hst]
        exact ⟨rfl, Or.inr ⟨Option.isNone_iff_eq_none.mp hip, rfl⟩⟩
      · rw [if_neg hip] at h
        cases hcc : st.vttCCs with
        | none =>
          rw [hcc] at h
          exact absurd h (by simp)
        | some ccs =>
          rw [hcc] at h
          cases hpr : d.parseResult with
          | none =>
            rw [hpr] at h
            simp only [Option.some.injEq, Prod.mk.injEq] at h
            obtain ⟨hst, _⟩ := h
            rw [← hst]
            exact ⟨rfl, Or.inl rfl⟩
          | some cues =>
            rw [hpr] at h
            cases hget : st.textTracks[d.frag.trackId]? with
            | none =>
              rw [hget] at h
              exact absurd h (by simp)
            | some handle =>
              rw [hget] at h
              simp only [Option.some.injEq, Prod.mk.injEq] at h
              obtain ⟨hst, _⟩ := h
              rw [← hst]
              exact ⟨rfl, Or.inl rfl⟩

theorem processFrags_queue :
    ∀ (q : List FragData) (st st' : TCState) (outs : List Output),
      st.initPTS.isSome = true → processFrags q st = some (st', outs) →
      st'.initPTS = st.initPTS ∧ st'.unparsedVttFrags = st.unparsedVttFrags := by
  intro q
  induction q with
  | nil =>
    intro st st' outs _ h
    simp only [processFrags, Option.some.injEq, Prod.mk.injEq] at h
    obtain ⟨hst, _⟩ := h
    rw [← hst]
    exact ⟨rfl, rfl⟩
  | cons d rest ih =>
    intro st st' outs hs h
    rw [processFrags] at h
    cases h1 : onFragLoaded d st with
    | none =>
      rw [h1] at h
      exact absurd h (by simp)
    | some r =>
      obtain ⟨st1, outs1⟩ := r
      simp only [h1] at h
      cases h2 : processFrags rest st1 with
      | none =>
        simp only [h2] at h
        exact absurd h (by simp)
      | some r2 =>
        obtain ⟨st2, outs2⟩ := r2
        simp only [h2, Option.some.injEq, Prod.mk.injEq] at h
        obtain ⟨hst, _⟩ := h
        have hf := onFragLoaded_queue d st st1 outs1 h1
        have hip1 : st1.initPTS = st.initPTS := hf.1
        have hq1 : st1.unparsedVttFrags = st.unparsedVttFrags := by
          rcases hf.2 with hv | ⟨hnone, _⟩
          · exact hv
          · rw [hnone] at hs
            exact absurd hs (by simp)
        have hrec := ih st1 st2 outs2 (by rw [hip1]; exact hs) h2
        rw [← hst]
        exact ⟨by rw [hrec.1, hip1], by rw [hrec.2, hq1]⟩

/-- The gate invariant: a defined reference timestamp forces an empty queue. -/
def QueueInv (st : TCState) : Prop :=
  st.initPTS.isSome = true → st.unparsedVttFrags = []

theorem step_preserves_QueueInv (e : TCEvent) (st st' : TCState)
    (hinv : QueueInv st) (h : step e st = some st') : QueueInv st' := by
  cases e with
  | fragLoaded d =>
    simp only [step] at h
    cases h1 : onFragLoaded d st with
    | none =>
      rw [h1] at h
      exact absurd h (by simp)
    | some r =>
      obtain ⟨st1, outs1⟩ := r
      rw [h1] at h
      simp only [Option.map_some', Option.some.injEq] at h
      have hf := onFragLoaded_queue d st st1 outs1 h1
      rw [← h]
      intro hs
      have hs0 : st.initPTS.isSome = true := by rw [← hf.1]; exact hs
      rcases hf.2 with hv | ⟨hnone, _⟩
      · rw [hv]
        exact hinv hs0
      · rw [hnone] at hs0
        exact absurd hs0 (by simp)
  | initPtsFound pts =>
    simp only [step] at h
    cases h1 : onInitPtsFound pts st with
    | none =>
      rw [h1] at h
      exact absurd h (by simp)
    | some r =>
      obtain ⟨st1, outs1⟩ := r
      rw [h1] at h
      simp only [Option.map_some', Option.some.injEq] at h
      rw [onInitPtsFound] at h1
      by_cases hqe : (if st.initPTS.isNone then { st with initPTS := some pts }
          else st).unparsedVttFrags.isEmpty = true
      · rw [if_pos hqe] at h1
        simp only [Option.some.injEq, Prod.mk.injEq] at h1
        obtain ⟨hst, _⟩ := h1
        rw [← h, ← hst]
        intro _
        by_cases hip : st.initPTS.isNone
        · simp only [if_pos hip] at hqe ⊢
          exact List.isEmpty_iff.mp (by simpa using hqe)
        · simp only [if_neg hip] at hqe ⊢
          exact List.isEmpty_iff.mp hqe
      · rw [if_neg hqe] at h1
        cases h2 : processFrags (if st.initPTS.isNone then { st with initPTS := some pts }
            else st).unparsedVttFrags (if st.initPTS.isNone then { st with initPTS := some pts }
            else st) with
        | none =>
          rw [h2] at h1
          exact absurd h1 (by simp)
        | some r2 =>
          obtain ⟨st2, outs2⟩ := r2
          rw [h2] at h1
          simp only [Option.some.injEq, Prod.mk.injEq] at h1
          obtain ⟨hst, _⟩ := h1
          rw [← h, ← hst]
          intro _
          rfl
  | manifestLoading =>
    simp only [step, Option.some.injEq] at h
    rw [← h]
    intro hs
    exact hinv hs
  | manifestLoaded tracks =>
    simp only [step, Option.some.injEq] at h
    rw [← h]
    intro hs
    simp [onManifestLoaded] at hs
  | mediaAttaching =>
    simp only [step, Option.some.injEq] at h
    rw [← h]
    intro hs
    exact hinv hs
  | mediaDetaching =>
    simp only [step, Option.some.injEq] at h
    rw [← h]
    intro hs
    exact hinv hs

theorem run_preserves_QueueInv :
    ∀ (evs : List TCEvent) (st st' : TCState),
      QueueInv st → run evs st = some st' → QueueInv st' := by
  intro evs
  induction evs with
  | nil =>
    intro st st' hinv h
    simp only [run, Option.some.injEq] at h
    rw [← h]
    exact hinv
  | cons e rest ih =>
    intro st st' hinv h
    rw [run] at h
    cases h1 : step e st with
    | none =>
      rw [h1] at h
      exact absurd h (by simp)
    | some st1 =>
      rw [h1] at h
      exact ih st1 st' (step_preserves_QueueInv e st st1 hinv h1) h

/-- C10: in every state reachable from a freshly-constructed controller by
completed event-handler invocations, a defined reference timestamp implies an
empty pending queue; consequently `onInitPtsFound` delivered in a reachable
state whose timestamp is already set is a no-op — the drain loop never runs. -/
theorem reachable_queue_empty (st : TCState) (h : Reachable st) :
    (st.initPTS.isSome = true → st.unparsedVttFrags = []) ∧
    (∀ pts : ℚ, st.initPTS.isSome = true → onInitPtsFound pts st = some (st, [])) := by
  obtain ⟨cea, webvtt, evs, hrun⟩ := h
  have hinit : QueueInv (initState cea webvtt) := by
    intro hs
    rfl
  have hinv : QueueInv st := run_preserves_QueueInv evs (initState cea webvtt) st hinit hrun
  refine ⟨hinv, ?_⟩
  intro pts hs
  have hq := hinv hs
  have hnn : st.initPTS.isNone = false := by
    cases hv : st.initPTS with
    | none => rw [hv] at hs; exact absurd hs (by simp)
    | some v => rfl
  simp [onInitPtsFound, hnn, hq]

/-- A reachable state with the reference timestamp set and nothing queued. -/
def stR : TCState := { initState false false with initPTS := some 0 }

/-- Witness for C10 at the concrete reachable state obtained by delivering one
`INIT_PTS_FOUND` event to a fresh controller. -/
theorem reachable_queue_empty_w :
    stR.unparsedVttFrags = [] ∧ onInitPtsFound 1 stR = some (stR, []) := by
  have hreach : Reachable stR := ⟨false, false, [.initPtsFound 0], rfl⟩
  have h := reachable_queue_empty stR hreach
  exact ⟨h.1 rfl, h.2 1 rfl⟩
